import Mathlib

/-!
Shallow embedding of the MMR reranking core of this repository
(`mmr_reranker.py`, and its caller `bpr_mmr_sim.py`).

Scores are modelled as exact rationals (the code uses floating point; every
claim below is about comparison/selection logic, which is exact), item
identifiers as naturals.  The cosine-similarity computation
(`get_cosine_similarity`) is modelled over the reals in a separate section,
since it involves square roots; the per-user functions receive the similarity
matrix as a function argument, exactly as `compute_mmr` receives
`similarity_matrix` in the source.
-/

/-- Errors observable from the reranking code paths.  `indexError` models a
Python IndexError (indexing an empty list / out-of-range tensor write),
`argmaxEmpty` models `torch.argmax` applied to an empty tensor,
`topkOutOfRange` models `torch.topk` with `k` out of range,
`invalidParameter` models the `InvalidParameterError` described by the
specification (the code never raises it), and `fuelExhausted` is an artifact
of the bounded encoding of the while loop, unreachable for the fuel supplied
by `compute_mmr_selection`. -/
inductive MMRError where
  | indexError
  | argmaxEmpty
  | topkOutOfRange
  | invalidParameter
  | fuelExhausted
  deriving DecidableEq, Repr

deriving instance DecidableEq for Except

/-- `MMRReranker.__init__` (mmr_reranker.py lines 6-9): the constructor just
stores `lambda_mmr`, `top_k` and `n_items`; it performs no validation. -/
structure MMRReranker where
  lambda_mmr : ℚ
  top_k : ℤ
  n_items : ℤ
  deriving DecidableEq, Repr

/-- `torch.argmax` over a vector of scores: the index of the first maximal
element, `none` on an empty tensor (where torch raises a reduction error). -/
def argmaxIdx : List ℚ → Option ℕ
  | [] => none
  | x :: xs =>
    match argmaxIdx xs with
    | none => some 0
    | some m => if xs.getD m 0 ≤ x then some 0 else some (m + 1)

/-- `similarity_matrix[item, selected_items].sum()` (line 56): the summed
similarity of candidate `c` to every already selected item. -/
def similarity_to_selected (sim : ℕ → ℕ → ℚ) (selected : List ℕ) (c : ℕ) : ℚ :=
  (selected.map fun s => sim c s).sum

/-- The MMR objective of one remaining candidate `c` (line 62):
`lambda_mmr * relevance(c) - (1 - lambda_mmr) * similarity_to_selected(c)`. -/
def mmr_of (lam : ℚ) (sim : ℕ → ℕ → ℚ) (score : ℕ → ℚ) (selected : List ℕ) (c : ℕ) : ℚ :=
  lam * score c - (1 - lam) * similarity_to_selected sim selected c

/-- The tensor `mmr_scores` (line 62): the MMR objective of every remaining
candidate, in pool order. -/
def mmr_scores (lam : ℚ) (sim : ℕ → ℕ → ℚ) (score : ℕ → ℚ)
    (selected remaining : List ℕ) : List ℚ :=
  remaining.map (mmr_of lam sim score selected)

/-- The item the loop body picks (lines 65-66):
`full_list[torch.argmax(mmr_scores)]`. -/
def next_item (lam : ℚ) (sim : ℕ → ℕ → ℚ) (score : ℕ → ℚ)
    (selected remaining : List ℕ) : ℕ :=
  remaining.getD ((argmaxIdx (remaining.map (mmr_of lam sim score selected))).getD 0) 0

/-- The while loop of `compute_mmr` (lines 46-70).  State: `selected` is
`selected_items`, `remaining` is `full_list`.  Each iteration computes the MMR
score of every remaining candidate, appends the argmax candidate to
`selected` and removes it (first occurrence, like Python `list.remove`) from
`remaining`.  `fuel` bounds the recursion; the caller passes enough fuel that
`fuelExhausted` is unreachable. -/
def mmrLoop (lam : ℚ) (top_k : ℤ) (sim : ℕ → ℕ → ℚ) (score : ℕ → ℚ)
    (fuel : ℕ) (selected remaining : List ℕ) : Except MMRError (List ℕ × List ℕ) :=
  if (selected.length : ℤ) < top_k then
    match argmaxIdx (remaining.map (mmr_of lam sim score selected)), fuel with
    | none, _ => .error .argmaxEmpty
    | some _, 0 => .error .fuelExhausted
    | some idx, fuel' + 1 =>
      mmrLoop lam top_k sim score fuel'
        (selected ++ [remaining.getD idx 0])
        (remaining.erase (remaining.getD idx 0))
  else .ok (selected, remaining)

/-- The dict `item_to_score` (line 44): maps each item of `topk_indices` to
the score at its position; built left to right, so for a duplicated key the
last occurrence wins (hence the lookup on the reversed association list).
Items absent from `topk_indices` are never looked up by the code. -/
def item_to_score (topk_indices : List ℕ) (topk_scores : List ℚ) (item : ℕ) : ℚ :=
  match ((topk_indices.zip topk_scores).reverse.find? fun p => p.1 == item) with
  | some p => p.2
  | none => 0

/-- Lines 35-70 of `compute_mmr`: the selection phase.  `full_list[0]` on an
empty candidate list raises IndexError; otherwise the first (highest-scoring)
candidate is selected unconditionally and the while loop runs on the rest.
Returns `(selected_items, full_list)` as left by the loop. -/
def compute_mmr_selection (rr : MMRReranker) (sim : ℕ → ℕ → ℚ)
    (topk_scores : List ℚ) (topk_indices : List ℕ) :
    Except MMRError (List ℕ × List ℕ) :=
  match topk_indices with
  | [] => .error .indexError
  | first :: rest =>
    mmrLoop rr.lambda_mmr rr.top_k sim (item_to_score topk_indices topk_scores)
      (rest.length + 1) [first] rest

/-- Lines 75-77: `reranked_scores` starts as `full_like(topk_scores, -inf)`
(`none` models the `-inf` fill) and the loop over `enumerate(combined_list)`
assigns `reranked_scores[i] = topk_scores[i]` - the enumerated item itself is
never used, only the running index `i`.  An out-of-range write raises
IndexError. -/
def fillLoop (topk_scores : List ℚ) :
    List (Option ℚ) → ℕ → List ℕ → Except MMRError (List (Option ℚ))
  | acc, _, [] => .ok acc
  | acc, i, _ :: rest =>
    if i < topk_scores.length then
      fillLoop topk_scores (acc.set i (some (topk_scores.getD i 0))) (i + 1) rest
    else .error .indexError

/-- `MMRReranker.compute_mmr` (lines 34-79): runs the selection phase, forms
`combined_list = selected_items + full_list` and returns `reranked_scores`.
The unused `all_item_e` parameter of the source (only read for its device) is
omitted. -/
def compute_mmr (rr : MMRReranker) (sim : ℕ → ℕ → ℚ)
    (topk_scores : List ℚ) (topk_indices : List ℕ) :
    Except MMRError (List (Option ℚ)) := do
  let sr ← compute_mmr_selection rr sim topk_scores topk_indices
  fillLoop topk_scores (List.replicate topk_scores.length none) 0 (sr.1 ++ sr.2)

/-- The ordering produced by the top-k sort on (index, score) pairs: strictly
larger score first, equal scores ordered by strictly smaller index. -/
def beats (a b : ℕ × ℚ) : Prop :=
  b.2 < a.2 ∨ (a.2 = b.2 ∧ a.1 < b.1)

/-- Stable insertion into a list of (index, score) pairs sorted by descending
score; an incoming pair goes in front of pairs of equal score, so that among
equal scores the lower index comes first. -/
def insertDesc (p : ℕ × ℚ) : List (ℕ × ℚ) → List (ℕ × ℚ)
  | [] => [p]
  | q :: qs => if q.2 ≤ p.2 then p :: q :: qs else q :: insertDesc p qs

/-- Sort (index, score) pairs by descending score, ties by ascending index. -/
def sortDesc (l : List (ℕ × ℚ)) : List (ℕ × ℚ) :=
  l.foldr insertDesc []

/-- The whole score row as (index, score) pairs, sorted by descending score. -/
def sortedPool (row : List ℚ) : List (ℕ × ℚ) :=
  sortDesc ((List.range row.length).zip row)

/-- `torch.topk(row, k)` on one score row (line 15, per user): the `k`
largest scores together with their indices, sorted descending.  Ties are
modelled as resolved by lowest index (first occurrence).  torch raises
`selected index k out of range` when `k` is negative or exceeds the row
length. -/
def topkRow (k : ℤ) (row : List ℚ) : Except MMRError (List ℚ × List ℕ) :=
  if 0 ≤ k ∧ k ≤ (row.length : ℤ) then
    let tk := (sortedPool row).take k.toNat
    .ok (tk.map Prod.snd, tk.map Prod.fst)
  else .error .topkOutOfRange

/-- Sequencing of per-row computations in `rerank`, mirroring the Python
loops that accumulate a result list and propagate the first exception. -/
def exceptMap (f : α → Except MMRError β) : List α → Except MMRError (List β)
  | [] => .ok []
  | a :: as => do
    let b ← f a
    let bs ← exceptMap f as
    .ok (b :: bs)

/-- `MMRReranker.rerank` (lines 11-32): first `torch.topk(scores, n_items,
dim=1)` row by row, then the per-user loop calling `compute_mmr`.  The
similarity matrix is received as a function argument; in the source it is
`get_cosine_similarity(all_item_e)` (modelled over the reals below), whose
values the claims about `rerank` do not depend on. -/
def rerank (rr : MMRReranker) (sim : ℕ → ℕ → ℚ) (scores : List (List ℚ)) :
    Except MMRError (List (List (Option ℚ))) := do
  let topks ← exceptMap (topkRow rr.n_items) scores
  exceptMap (fun p => compute_mmr rr sim p.1 p.2) topks

/-! ### Basic facts about the argmax of a score list -/

theorem argmaxIdx_cons_none {x : ℚ} {xs : List ℚ} (hx : argmaxIdx xs = none) :
    argmaxIdx (x :: xs) = some 0 := by
  simp only [argmaxIdx, hx]

theorem argmaxIdx_cons_some {x : ℚ} {xs : List ℚ} {m : ℕ} (hx : argmaxIdx xs = some m) :
    argmaxIdx (x :: xs) = if xs.getD m 0 ≤ x then some 0 else some (m + 1) := by
  simp only [argmaxIdx, hx]

theorem argmaxIdx_eq_none {l : List ℚ} : argmaxIdx l = none ↔ l = [] := by
  cases l with
  | nil => simp [argmaxIdx]
  | cons x xs =>
    constructor
    · intro h
      exfalso
      cases hx : argmaxIdx xs with
      | none => rw [argmaxIdx_cons_none hx] at h; exact Option.noConfusion h
      | some m =>
        rw [argmaxIdx_cons_some hx] at h
        by_cases hle : xs.getD m 0 ≤ x
        · rw [if_pos hle] at h; exact Option.noConfusion h
        · rw [if_neg hle] at h; exact Option.noConfusion h
    · intro h; exact (List.cons_ne_nil x xs h).elim

theorem argmaxIdx_length {l : List ℚ} {m : ℕ} (h : argmaxIdx l = some m) :
    m < l.length := by
  induction l generalizing m with
  | nil => simp [argmaxIdx] at h
  | cons x xs ih =>
    cases hx : argmaxIdx xs with
    | none =>
      rw [argmaxIdx_cons_none hx] at h
      cases h
      simp
    | some m' =>
      rw [argmaxIdx_cons_some hx] at h
      have hm' := ih hx
      by_cases hle : xs.getD m' 0 ≤ x
      · rw [if_pos hle] at h; cases h; simp
      · rw [if_neg hle] at h; cases h; simpa using Nat.succ_lt_succ hm'

theorem argmaxIdx_le {l : List ℚ} {m : ℕ} (h : argmaxIdx l = some m) :
    ∀ j, j < l.length → l.getD j 0 ≤ l.getD m 0 := by
  induction l generalizing m with
  | nil => simp [argmaxIdx] at h
  | cons x xs ih =>
    cases hx : argmaxIdx xs with
    | none =>
      rw [argmaxIdx_cons_none hx] at h
      cases h
      have hxs : xs = [] := argmaxIdx_eq_none.mp hx
      subst hxs
      intro j hj
      simp only [List.length_cons, List.length_nil, Nat.lt_succ_iff, Nat.le_zero] at hj
      subst hj
      simp
    | some m' =>
      rw [argmaxIdx_cons_some hx] at h
      by_cases hle : xs.getD m' 0 ≤ x
      · rw [if_pos hle] at h
        cases h
        intro j hj
        cases j with
        | zero => simp
        | succ j' =>
          simp only [List.getD_cons_succ, List.getD_cons_zero]
          exact le_trans (ih hx j' (by simpa using hj)) hle
      · rw [if_neg hle] at h
        cases h
        intro j hj
        cases j with
        | zero =>
          simp only [List.getD_cons_succ, List.getD_cons_zero]
          exact le_of_not_le hle
        | succ j' =>
          simp only [List.getD_cons_succ]
          exact ih hx j' (by simpa using hj)

theorem argmaxIdx_cons_of_le {x : ℚ} {xs : List ℚ} (h : ∀ y ∈ xs, y ≤ x) :
    argmaxIdx (x :: xs) = some 0 := by
  cases hx : argmaxIdx xs with
  | none => exact argmaxIdx_cons_none hx
  | some m =>
    have hm := argmaxIdx_length hx
    have hmem : xs.getD m 0 ∈ xs := by
      rw [List.getD_eq_getElem _ _ hm]
      exact List.getElem_mem hm
    rw [argmaxIdx_cons_some hx, if_pos (h _ hmem)]

/-! ### Structural facts about the selection loop -/

theorem mmrLoop_done {lam : ℚ} {top_k : ℤ} {sim : ℕ → ℕ → ℚ} {score : ℕ → ℚ}
    {fuel : ℕ} {selected remaining : List ℕ}
    (h : ¬ ((selected.length : ℤ) < top_k)) :
    mmrLoop lam top_k sim score fuel selected remaining = .ok (selected, remaining) := by
  rw [mmrLoop.eq_def, if_neg h]

theorem mmrLoop_step {lam : ℚ} {top_k : ℤ} {sim : ℕ → ℕ → ℚ} {score : ℕ → ℚ}
    {fuel : ℕ} {selected remaining : List ℕ} {idx : ℕ}
    (hlt : (selected.length : ℤ) < top_k)
    (h : argmaxIdx (remaining.map (mmr_of lam sim score selected)) = some idx) :
    mmrLoop lam top_k sim score (fuel + 1) selected remaining =
      mmrLoop lam top_k sim score fuel
        (selected ++ [remaining.getD idx 0])
        (remaining.erase (remaining.getD idx 0)) := by
  conv_lhs => rw [mmrLoop.eq_def]
  rw [if_pos hlt, h]

theorem mmrLoop_empty {lam : ℚ} {top_k : ℤ} {sim : ℕ → ℕ → ℚ} {score : ℕ → ℚ}
    {fuel : ℕ} {selected : List ℕ}
    (hlt : (selected.length : ℤ) < top_k) :
    mmrLoop lam top_k sim score fuel selected [] = .error .argmaxEmpty := by
  rw [mmrLoop.eq_def, if_pos hlt]
  have h : argmaxIdx (([] : List ℕ).map (mmr_of lam sim score selected)) = none := by
    simp [argmaxIdx]
  rw [h]

theorem mmrLoop_error_cases {lam : ℚ} {top_k : ℤ} {sim : ℕ → ℕ → ℚ} {score : ℕ → ℚ} :
    ∀ (fuel : ℕ) (selected remaining : List ℕ) (e : MMRError),
    mmrLoop lam top_k sim score fuel selected remaining = .error e →
    e = .argmaxEmpty ∨ e = .fuelExhausted := by
  intro fuel
  induction fuel with
  | zero =>
    intro selected remaining e h
    rw [mmrLoop.eq_def] at h
    split at h
    · split at h
      · cases h; exact Or.inl rfl
      · cases h; exact Or.inr rfl
      · omega
    · exact Except.noConfusion h
  | succ fuel' ih =>
    intro selected remaining e h
    rw [mmrLoop.eq_def] at h
    split at h
    · split at h
      · cases h; exact Or.inl rfl
      · omega
      · rename_i fl2 h1 h2
        injection h2 with h3
        subst h3
        exact ih _ _ _ h
    · exact Except.noConfusion h

theorem mmrLoop_ok_append {lam : ℚ} {top_k : ℤ} {sim : ℕ → ℕ → ℚ} {score : ℕ → ℚ} :
    ∀ (fuel : ℕ) (selected remaining sel rem : List ℕ),
    mmrLoop lam top_k sim score fuel selected remaining = .ok (sel, rem) →
    ∃ t, sel = selected ++ t := by
  intro fuel
  induction fuel with
  | zero =>
    intro selected remaining sel rem h
    rw [mmrLoop.eq_def] at h
    split at h
    · split at h
      · exact Except.noConfusion h
      · exact Except.noConfusion h
      · omega
    · cases h; exact ⟨[], by simp⟩
  | succ fuel' ih =>
    intro selected remaining sel rem h
    rw [mmrLoop.eq_def] at h
    split at h
    · split at h
      · exact Except.noConfusion h
      · omega
      · rename_i idx fl2 h1 h2
        injection h2 with h3
        subst h3
        obtain ⟨t, ht⟩ := ih _ _ _ _ h
        exact ⟨[remaining.getD idx 0] ++ t, by rw [ht, List.append_assoc]⟩
    · cases h; exact ⟨[], by simp⟩

theorem mmrLoop_ok_length {lam : ℚ} {top_k : ℤ} {sim : ℕ → ℕ → ℚ} {score : ℕ → ℚ} :
    ∀ (fuel : ℕ) (selected remaining sel rem : List ℕ),
    mmrLoop lam top_k sim score fuel selected remaining = .ok (sel, rem) →
    sel.length + rem.length = selected.length + remaining.length := by
  intro fuel
  induction fuel with
  | zero =>
    intro selected remaining sel rem h
    rw [mmrLoop.eq_def] at h
    split at h
    · split at h
      · exact Except.noConfusion h
      · exact Except.noConfusion h
      · omega
    · cases h; rfl
  | succ fuel' ih =>
    intro selected remaining sel rem h
    rw [mmrLoop.eq_def] at h
    split at h
    · split at h
      · exact Except.noConfusion h
      · omega
      · rename_i idx fl2 h1 h2
        injection h2 with h3
        subst h3
        have hidx : idx < remaining.length := by
          simpa using argmaxIdx_length h1
        have hmem : remaining.getD idx 0 ∈ remaining := by
          rw [List.getD_eq_getElem _ _ hidx]
          exact List.getElem_mem hidx
        have hrec := ih _ _ _ _ h
        rw [hrec, List.length_append, List.length_erase_of_mem hmem]
        simp
        omega
    · cases h; rfl

theorem argmaxIdx_map_some {remaining : List ℕ} {f : ℕ → ℚ}
    (hne : remaining ≠ []) : ∃ idx, argmaxIdx (remaining.map f) = some idx := by
  cases hx : argmaxIdx (remaining.map f) with
  | none =>
    rw [argmaxIdx_eq_none] at hx
    exact absurd (List.map_eq_nil_iff.mp hx) hne
  | some m => exact ⟨m, rfl⟩

theorem mmrLoop_total {lam : ℚ} {top_k : ℤ} {sim : ℕ → ℕ → ℚ} {score : ℕ → ℚ} :
    ∀ (fuel : ℕ) (selected remaining : List ℕ),
    remaining.length ≤ fuel →
    top_k ≤ (selected.length : ℤ) + remaining.length →
    ∃ sel rem, mmrLoop lam top_k sim score fuel selected remaining = .ok (sel, rem) ∧
      (sel.length : ℤ) = max (selected.length : ℤ) top_k := by
  intro fuel
  induction fuel with
  | zero =>
    intro selected remaining h1 h2
    have hrem : remaining = [] := List.eq_nil_of_length_eq_zero (Nat.le_zero.mp h1)
    subst hrem
    have hlt : ¬ ((selected.length : ℤ) < top_k) := by
      simp only [List.length_nil, Nat.cast_zero, add_zero] at h2
      omega
    exact ⟨selected, [], mmrLoop_done hlt, by omega⟩
  | succ fuel' ih =>
    intro selected remaining h1 h2
    by_cases hlt : (selected.length : ℤ) < top_k
    · have hne : remaining ≠ [] := by
        intro hnil
        subst hnil
        simp only [List.length_nil, Nat.cast_zero, add_zero] at h2
        omega
      obtain ⟨idx, hidx⟩ := @argmaxIdx_map_some remaining (mmr_of lam sim score selected) hne
      have hlen : idx < remaining.length := by simpa using argmaxIdx_length hidx
      have hmem : remaining.getD idx 0 ∈ remaining := by
        rw [List.getD_eq_getElem _ _ hlen]
        exact List.getElem_mem hlen
      rw [mmrLoop_step hlt hidx]
      have h1' : (remaining.erase (remaining.getD idx 0)).length ≤ fuel' := by
        rw [List.length_erase_of_mem hmem]
        omega
      have h2' : top_k ≤ ((selected ++ [remaining.getD idx 0]).length : ℤ) +
          (remaining.erase (remaining.getD idx 0)).length := by
        rw [List.length_append, List.length_erase_of_mem hmem]
        push_cast
        simp only [List.length_cons, List.length_nil]
        push_cast
        omega
      obtain ⟨sel, rem, heq, hlen'⟩ := ih _ _ h1' h2'
      refine ⟨sel, rem, heq, ?_⟩
      rw [hlen']
      simp only [List.length_append, List.length_cons, List.length_nil]
      push_cast
      omega
    · exact ⟨selected, remaining, mmrLoop_done hlt, by omega⟩

theorem mmrLoop_overrun {lam : ℚ} {top_k : ℤ} {sim : ℕ → ℕ → ℚ} {score : ℕ → ℚ} :
    ∀ (fuel : ℕ) (selected remaining : List ℕ),
    remaining.length ≤ fuel →
    (selected.length : ℤ) + remaining.length < top_k →
    mmrLoop lam top_k sim score fuel selected remaining = .error .argmaxEmpty := by
  intro fuel
  induction fuel with
  | zero =>
    intro selected remaining h1 h2
    have hrem : remaining = [] := List.eq_nil_of_length_eq_zero (Nat.le_zero.mp h1)
    subst hrem
    have hlt : (selected.length : ℤ) < top_k := by
      simp only [List.length_nil, Nat.cast_zero, add_zero] at h2
      omega
    exact mmrLoop_empty hlt
  | succ fuel' ih =>
    intro selected remaining h1 h2
    have hlt : (selected.length : ℤ) < top_k := by
      have : (0 : ℤ) ≤ remaining.length := by positivity
      omega
    cases hrem : remaining with
    | nil => exact mmrLoop_empty hlt
    | cons r rs =>
      subst hrem
      obtain ⟨idx, hidx⟩ := @argmaxIdx_map_some (r :: rs)
        (mmr_of lam sim score selected) (List.cons_ne_nil r rs)
      have hlen : idx < (r :: rs).length := by simpa using argmaxIdx_length hidx
      have hmem : (r :: rs).getD idx 0 ∈ r :: rs := by
        rw [List.getD_eq_getElem _ _ hlen]
        exact List.getElem_mem hlen
      rw [mmrLoop_step hlt hidx]
      apply ih
      · rw [List.length_erase_of_mem hmem]
        simp only [List.length_cons] at h1 ⊢
        omega
      · rw [List.length_erase_of_mem hmem, List.length_append]
        simp only [List.length_cons, List.length_nil] at h2 ⊢
        push_cast
        omega

theorem mmrLoop_nodup {lam : ℚ} {top_k : ℤ} {sim : ℕ → ℕ → ℚ} {score : ℕ → ℚ} :
    ∀ (fuel : ℕ) (selected remaining sel rem : List ℕ),
    selected.Nodup → remaining.Nodup → (∀ a ∈ selected, a ∉ remaining) →
    mmrLoop lam top_k sim score fuel selected remaining = .ok (sel, rem) →
    sel.Nodup := by
  intro fuel
  induction fuel with
  | zero =>
    intro selected remaining sel rem hs hr hd h
    rw [mmrLoop.eq_def] at h
    split at h
    · split at h
      · exact Except.noConfusion h
      · exact Except.noConfusion h
      · omega
    · cases h; exact hs
  | succ fuel' ih =>
    intro selected remaining sel rem hs hr hd h
    rw [mmrLoop.eq_def] at h
    split at h
    · split at h
      · exact Except.noConfusion h
      · omega
      · rename_i idx fl2 h1 h2
        injection h2 with h3
        subst h3
        have hidx : idx < remaining.length := by
          simpa using argmaxIdx_length h1
        have hmem : remaining.getD idx 0 ∈ remaining := by
          rw [List.getD_eq_getElem _ _ hidx]
          exact List.getElem_mem hidx
        refine ih _ _ _ _ ?_ ?_ ?_ h
        · rw [List.nodup_append]
          refine ⟨hs, List.nodup_singleton _, ?_⟩
          intro a ha hb
          rw [List.mem_singleton] at hb
          exact hd a ha (hb ▸ hmem)
        · exact hr.erase _
        · intro a ha
          rw [List.mem_append, List.mem_singleton] at ha
          cases ha with
          | inl ha =>
            intro hc
            exact hd a ha (List.erase_subset _ _ hc)
          | inr ha =>
            subst ha
            rw [hr.mem_erase_iff]
            intro hc
            exact hc.1 rfl
    · cases h; exact hs

/-- With `lambda_mmr = 1` the MMR objective degenerates to the relevance
score alone. -/
theorem mmr_of_one {sim : ℕ → ℕ → ℚ} {score : ℕ → ℚ} {selected : List ℕ} {c : ℕ} :
    mmr_of 1 sim score selected c = score c := by
  simp [mmr_of]

theorem mmrLoop_lam_one {top_k : ℤ} {sim : ℕ → ℕ → ℚ} {score : ℕ → ℚ} :
    ∀ (fuel : ℕ) (selected remaining : List ℕ),
    (remaining.map score).Pairwise (fun a b => b ≤ a) →
    remaining.length ≤ fuel →
    top_k ≤ (selected.length : ℤ) + remaining.length →
    mmrLoop 1 top_k sim score fuel selected remaining =
      .ok (selected ++ remaining.take (top_k - selected.length).toNat,
           remaining.drop (top_k - selected.length).toNat) := by
  intro fuel
  induction fuel with
  | zero =>
    intro selected remaining hp h1 h2
    have hrem : remaining = [] := List.eq_nil_of_length_eq_zero (Nat.le_zero.mp h1)
    subst hrem
    have hlt : ¬ ((selected.length : ℤ) < top_k) := by
      simp only [List.length_nil, Nat.cast_zero, add_zero] at h2
      omega
    rw [mmrLoop_done hlt]
    simp
  | succ fuel' ih =>
    intro selected remaining hp h1 h2
    by_cases hlt : (selected.length : ℤ) < top_k
    · cases hrem : remaining with
      | nil =>
        subst hrem
        simp only [List.length_nil, Nat.cast_zero, add_zero] at h2
        omega
      | cons r rs =>
        subst hrem
        have hmap : (r :: rs).map (mmr_of 1 sim score selected) =
            score r :: rs.map score := by
          simp only [List.map_cons]
          rw [List.map_congr_left (fun a _ => mmr_of_one)]
          rw [mmr_of_one]
        have hhead : ∀ y ∈ rs.map score, y ≤ score r := by
          intro y hy
          rw [List.map_cons] at hp
          exact (List.pairwise_cons.mp hp).1 y hy
        have hargmax : argmaxIdx ((r :: rs).map (mmr_of 1 sim score selected)) = some 0 := by
          rw [hmap]
          exact argmaxIdx_cons_of_le hhead
        rw [mmrLoop_step hlt hargmax]
        simp only [List.getD_cons_zero, List.erase_cons_head]
        have hp' : (rs.map score).Pairwise (fun a b => b ≤ a) := by
          rw [List.map_cons] at hp
          exact (List.pairwise_cons.mp hp).2
        have h1' : rs.length ≤ fuel' := by
          simp only [List.length_cons] at h1
          omega
        have h2' : top_k ≤ ((selected ++ [r]).length : ℤ) + rs.length := by
          rw [List.length_append]
          simp only [List.length_cons, List.length_nil] at h2 ⊢
          push_cast
          push_cast at h2
          omega
        rw [ih _ _ hp' h1' h2']
        have harith : (top_k - (selected.length : ℤ)).toNat =
            (top_k - ((selected ++ [r]).length : ℤ)).toNat + 1 := by
          rw [List.length_append]
          simp only [List.length_cons, List.length_nil]
          push_cast
          omega
        rw [harith]
        simp only [List.take_succ_cons, List.drop_succ_cons]
        rw [List.append_assoc]
        simp
    · rw [mmrLoop_done hlt]
      have : (top_k - (selected.length : ℤ)).toNat = 0 := by omega
      rw [this]
      simp

/-! ### The score-filling loop and the compute_mmr wrapper -/

theorem fillLoop_error_cases {ts : List ℚ} :
    ∀ (combined : List ℕ) (acc : List (Option ℚ)) (i : ℕ) (e : MMRError),
    fillLoop ts acc i combined = .error e → e = .indexError := by
  intro combined
  induction combined with
  | nil =>
    intro acc i e h
    simp only [fillLoop] at h
    exact Except.noConfusion h
  | cons c rest ih =>
    intro acc i e h
    simp only [fillLoop] at h
    split at h
    · exact ih _ _ _ h
    · cases h; rfl

theorem fillLoop_spec {ts : List ℚ} :
    ∀ (combined : List ℕ) (i : ℕ),
    i + combined.length = ts.length →
    fillLoop ts ((ts.map some).take i ++ List.replicate (ts.length - i) none) i combined =
      .ok (ts.map some) := by
  intro combined
  induction combined with
  | nil =>
    intro i hi
    simp only [List.length_nil, Nat.add_zero] at hi
    subst hi
    simp only [fillLoop, Nat.sub_self, List.replicate_zero, List.append_nil]
    rw [List.take_of_length_le (by simp)]
  | cons c rest ih =>
    intro i hi
    have hilt : i < ts.length := by
      simp only [List.length_cons] at hi
      omega
    simp only [fillLoop, if_pos hilt]
    have hset : (((ts.map some).take i ++ List.replicate (ts.length - i) none).set i
        (some (ts.getD i 0))) =
        (ts.map some).take (i + 1) ++ List.replicate (ts.length - (i + 1)) none := by
      have hlen : ((ts.map some).take i).length = i := by
        simp only [List.length_take, List.length_map]
        omega
      have hrep : ts.length - i = (ts.length - (i + 1)) + 1 := by omega
      rw [hrep, List.replicate_succ]
      rw [List.set_append_right _ _ (by omega)]
      rw [hlen, Nat.sub_self, List.set_cons_zero]
      have htake : (ts.map some).take (i + 1) =
          (ts.map some).take i ++ [some (ts.getD i 0)] := by
        rw [List.take_succ, List.getElem?_map, List.getElem?_eq_getElem hilt,
          List.getD_eq_getElem _ _ hilt]
        rfl
      rw [htake, List.append_assoc]
      simp
    rw [hset]
    apply ih
    simp only [List.length_cons] at hi
    omega

theorem compute_mmr_selection_nil {rr : MMRReranker} {sim : ℕ → ℕ → ℚ} {ts : List ℚ} :
    compute_mmr_selection rr sim ts [] = .error .indexError := rfl

theorem compute_mmr_selection_cons {rr : MMRReranker} {sim : ℕ → ℕ → ℚ} {ts : List ℚ}
    {first : ℕ} {rest : List ℕ} :
    compute_mmr_selection rr sim ts (first :: rest) =
      mmrLoop rr.lambda_mmr rr.top_k sim (item_to_score (first :: rest) ts)
        (rest.length + 1) [first] rest := rfl

theorem compute_mmr_eq {rr : MMRReranker} {sim : ℕ → ℕ → ℚ} {ts : List ℚ} {ti : List ℕ} :
    compute_mmr rr sim ts ti =
      match compute_mmr_selection rr sim ts ti with
      | .error e => .error e
      | .ok sr => fillLoop ts (List.replicate ts.length none) 0 (sr.1 ++ sr.2) := by
  unfold compute_mmr
  cases compute_mmr_selection rr sim ts ti <;> rfl

theorem rerank_eq {rr : MMRReranker} {sim : ℕ → ℕ → ℚ} {scores : List (List ℚ)} :
    rerank rr sim scores =
      match exceptMap (topkRow rr.n_items) scores with
      | .error e => .error e
      | .ok topks => exceptMap (fun p => compute_mmr rr sim p.1 p.2) topks := by
  unfold rerank
  cases exceptMap (topkRow rr.n_items) scores <;> rfl

theorem exceptMap_cons {f : α → Except MMRError β} {a : α} {as : List α} :
    exceptMap f (a :: as) =
      match f a with
      | .error e => .error e
      | .ok b =>
        match exceptMap f as with
        | .error e => .error e
        | .ok bs => .ok (b :: bs) := by
  simp only [exceptMap]
  cases f a with
  | error e => rfl
  | ok b => cases exceptMap f as <;> rfl

theorem exceptMap_ne_error {f : α → Except MMRError β} {e : MMRError}
    (hf : ∀ a, f a ≠ .error e) : ∀ l, exceptMap f l ≠ .error e := by
  intro l
  induction l with
  | nil => intro h; exact Except.noConfusion h
  | cons a as ih =>
    rw [exceptMap_cons]
    cases hfa : f a with
    | error e' =>
      intro h
      simp only at h
      cases h
      exact hf a hfa
    | ok b =>
      cases hmb : exceptMap f as with
      | error e' =>
        intro h
        simp only at h
        cases h
        exact ih hmb
      | ok bs =>
        intro h
        simp only at h
        exact Except.noConfusion h

/-! ### The descending sort behind the top-k prefilter -/

theorem mem_insertDesc {y x : ℕ × ℚ} :
    ∀ {l : List (ℕ × ℚ)}, y ∈ insertDesc x l ↔ y = x ∨ y ∈ l := by
  intro l
  induction l with
  | nil => simp [insertDesc]
  | cons q qs ih =>
    simp only [insertDesc]
    split
    · simp [or_comm, or_assoc, or_left_comm]
    · simp only [List.mem_cons, ih]
      tauto

theorem insertDesc_perm (x : ℕ × ℚ) :
    ∀ (l : List (ℕ × ℚ)), (insertDesc x l).Perm (x :: l) := by
  intro l
  induction l with
  | nil => simp [insertDesc]
  | cons q qs ih =>
    simp only [insertDesc]
    split
    · exact List.Perm.refl _
    · exact (ih.cons q).trans (List.Perm.swap x q qs)

theorem sortDesc_perm : ∀ (l : List (ℕ × ℚ)), (sortDesc l).Perm l := by
  intro l
  induction l with
  | nil => simp [sortDesc]
  | cons x xs ih =>
    have : sortDesc (x :: xs) = insertDesc x (sortDesc xs) := rfl
    rw [this]
    exact (insertDesc_perm x (sortDesc xs)).trans (ih.cons x)

theorem insertDesc_pairwise {x : ℕ × ℚ} :
    ∀ {l : List (ℕ × ℚ)}, l.Pairwise beats → (∀ q ∈ l, x.2 = q.2 → x.1 < q.1) →
    (insertDesc x l).Pairwise beats := by
  intro l
  induction l with
  | nil => intro _ _; simp [insertDesc, List.pairwise_cons]
  | cons q qs ih =>
    intro hp htie
    obtain ⟨hq, hqs⟩ := List.pairwise_cons.mp hp
    simp only [insertDesc]
    split
    · rename_i hle
      rw [List.pairwise_cons]
      refine ⟨?_, hp⟩
      intro y hy
      rcases List.mem_cons.mp hy with hyq | hyqs
      · subst hyq
        rcases lt_or_eq_of_le hle with hlt | heq
        · exact Or.inl hlt
        · exact Or.inr ⟨heq.symm, htie y (List.mem_cons_self y qs) heq.symm⟩
      · have hyle : y.2 ≤ q.2 := by
          rcases hq y hyqs with h' | h'
          · exact le_of_lt h'
          · exact le_of_eq h'.1.symm
        by_cases hxy : x.2 = y.2
        · exact Or.inr ⟨hxy, htie y (List.mem_cons_of_mem q hyqs) hxy⟩
        · exact Or.inl (lt_of_le_of_ne (le_trans hyle hle) (fun hc => hxy hc.symm))
    · rename_i hgt
      push_neg at hgt
      rw [List.pairwise_cons]
      constructor
      · intro y hy
        rcases mem_insertDesc.mp hy with hyx | hyqs
        · subst hyx
          exact Or.inl hgt
        · exact hq y hyqs
      · exact ih hqs (fun p hp' => htie p (List.mem_cons_of_mem q hp'))

theorem sortDesc_pairwise :
    ∀ {l : List (ℕ × ℚ)}, l.Pairwise (fun a b => a.1 < b.1) →
    (sortDesc l).Pairwise beats := by
  intro l
  induction l with
  | nil => intro _; simp [sortDesc]
  | cons x xs ih =>
    intro hp
    obtain ⟨hx, hxs⟩ := List.pairwise_cons.mp hp
    have : sortDesc (x :: xs) = insertDesc x (sortDesc xs) := rfl
    rw [this]
    refine insertDesc_pairwise (ih hxs) ?_
    intro q hq _
    exact hx q ((sortDesc_perm xs).mem_iff.mp hq)

/-! ### Facts about the sorted pool and topkRow -/

theorem zip_range_pairwise {row : List ℚ} :
    ((List.range row.length).zip row).Pairwise (fun a b => a.1 < b.1) := by
  rw [List.pairwise_iff_getElem]
  intro i j hi hj hij
  have hlen : ((List.range row.length).zip row).length = row.length := by
    simp [List.length_zip]
  rw [hlen] at hi hj
  rw [List.getElem_zip, List.getElem_zip]
  simpa using hij

theorem sortedPool_pairwise {row : List ℚ} : (sortedPool row).Pairwise beats :=
  sortDesc_pairwise zip_range_pairwise

theorem sortedPool_perm {row : List ℚ} :
    (sortedPool row).Perm ((List.range row.length).zip row) :=
  sortDesc_perm _

theorem sortedPool_length {row : List ℚ} : (sortedPool row).length = row.length := by
  rw [sortedPool_perm.length_eq]
  simp [List.length_zip]

theorem mem_zip_range {row : List ℚ} {p : ℕ × ℚ} :
    p ∈ (List.range row.length).zip row ↔
    ∃ j, ∃ h : j < row.length, p = (j, row[j]) := by
  constructor
  · intro hp
    rw [List.mem_iff_getElem] at hp
    obtain ⟨i, hi, hget⟩ := hp
    have hlen : ((List.range row.length).zip row).length = row.length := by
      simp [List.length_zip]
    rw [hlen] at hi
    refine ⟨i, hi, ?_⟩
    rw [← hget, List.getElem_zip]
    simp
  · rintro ⟨j, hj, rfl⟩
    rw [List.mem_iff_getElem]
    have hlen : ((List.range row.length).zip row).length = row.length := by
      simp [List.length_zip]
    refine ⟨j, by rw [hlen]; exact hj, ?_⟩
    rw [List.getElem_zip]
    simp

theorem mem_sortedPool {row : List ℚ} {p : ℕ × ℚ} :
    p ∈ sortedPool row ↔ ∃ j, ∃ h : j < row.length, p = (j, row[j]) := by
  rw [sortedPool_perm.mem_iff, mem_zip_range]

theorem sortedPool_map_fst_nodup {row : List ℚ} :
    ((sortedPool row).map Prod.fst).Nodup := by
  have hperm : ((sortedPool row).map Prod.fst).Perm
      (((List.range row.length).zip row).map Prod.fst) :=
    sortedPool_perm.map Prod.fst
  rw [hperm.nodup_iff]
  rw [List.map_fst_zip _ _ (by simp)]
  exact List.nodup_range _

theorem topkRow_ok_of_le {k : ℤ} {row : List ℚ} (h0 : 0 ≤ k)
    (hk : k ≤ (row.length : ℤ)) :
    topkRow k row = .ok (((sortedPool row).take k.toNat).map Prod.snd,
      ((sortedPool row).take k.toNat).map Prod.fst) := by
  unfold topkRow
  rw [if_pos ⟨h0, hk⟩]

theorem topkRow_ok_elim {k : ℤ} {row : List ℚ} {ts : List ℚ} {ti : List ℕ}
    (h : topkRow k row = .ok (ts, ti)) :
    0 ≤ k ∧ k ≤ (row.length : ℤ) ∧
    ts = ((sortedPool row).take k.toNat).map Prod.snd ∧
    ti = ((sortedPool row).take k.toNat).map Prod.fst := by
  unfold topkRow at h
  split at h
  · rename_i hcond
    cases h
    exact ⟨hcond.1, hcond.2, rfl, rfl⟩
  · exact Except.noConfusion h

theorem topkRow_ti_nodup {k : ℤ} {row : List ℚ} {ts : List ℚ} {ti : List ℕ}
    (h : topkRow k row = .ok (ts, ti)) : ti.Nodup := by
  obtain ⟨_, _, _, hti⟩ := topkRow_ok_elim h
  rw [hti]
  exact List.Nodup.sublist ((List.take_sublist _ _).map Prod.fst)
    (@sortedPool_map_fst_nodup row)

theorem topkRow_lengths {k : ℤ} {row : List ℚ} {ts : List ℚ} {ti : List ℕ}
    (h : topkRow k row = .ok (ts, ti)) :
    ts.length = ti.length ∧ ti.length = k.toNat := by
  obtain ⟨h0, hk, hts, hti⟩ := topkRow_ok_elim h
  subst hts hti
  constructor
  · simp
  · simp only [List.length_map, List.length_take, sortedPool_length]
    omega

theorem topkRow_ts_sorted {k : ℤ} {row : List ℚ} {ts : List ℚ} {ti : List ℕ}
    (h : topkRow k row = .ok (ts, ti)) :
    ts.Pairwise (fun a b => b ≤ a) := by
  obtain ⟨_, _, hts, _⟩ := topkRow_ok_elim h
  subst hts
  refine List.Pairwise.map _ ?_ ((sortedPool_pairwise).sublist (List.take_sublist _ _))
  intro a b hab
  rcases hab with h' | h'
  · exact le_of_lt h'
  · exact le_of_eq h'.1.symm

/-! ### The item-to-score dictionary agrees with the topk lists -/

theorem find_fst_unique :
    ∀ (l : List (ℕ × ℚ)) (x : ℕ × ℚ), (l.map Prod.fst).Nodup → x ∈ l →
    (l.find? fun p => p.1 == x.1) = some x := by
  intro l
  induction l with
  | nil => intro x _ hx; exact absurd hx (List.not_mem_nil x)
  | cons y ys ih =>
    intro x hnd hx
    rw [List.map_cons, List.nodup_cons] at hnd
    obtain ⟨hy, hys⟩ := hnd
    rcases List.mem_cons.mp hx with hxy | hxys
    · subst hxy
      rw [List.find?_cons_of_pos _ (by simp)]
    · have hne : y.1 ≠ x.1 := by
        intro hc
        apply hy
        rw [hc]
        exact List.mem_map_of_mem Prod.fst hxys
      rw [List.find?_cons_of_neg _ (by simpa using hne)]
      exact ih x hys hxys

theorem topkRow_ne_invalid {k : ℤ} {row : List ℚ} :
    topkRow k row ≠ .error .invalidParameter := by
  unfold topkRow
  split
  · intro h; exact Except.noConfusion h
  · intro h; cases h

theorem compute_mmr_selection_ne_invalid {rr : MMRReranker} {sim : ℕ → ℕ → ℚ}
    {ts : List ℚ} {ti : List ℕ} :
    compute_mmr_selection rr sim ts ti ≠ .error .invalidParameter := by
  cases ti with
  | nil => rw [compute_mmr_selection_nil]; intro h; cases h
  | cons first rest =>
    rw [compute_mmr_selection_cons]
    intro h
    rcases mmrLoop_error_cases _ _ _ _ h with h' | h' <;> exact MMRError.noConfusion h'

theorem compute_mmr_ne_invalid {rr : MMRReranker} {sim : ℕ → ℕ → ℚ}
    {ts : List ℚ} {ti : List ℕ} :
    compute_mmr rr sim ts ti ≠ .error .invalidParameter := by
  rw [compute_mmr_eq]
  cases hs : compute_mmr_selection rr sim ts ti with
  | error e =>
    intro h
    simp only at h
    cases h
    exact compute_mmr_selection_ne_invalid hs
  | ok sr =>
    intro h
    simp only at h
    have := fillLoop_error_cases _ _ _ _ h
    exact MMRError.noConfusion this


theorem item_to_score_getD {ti : List ℕ} {ts : List ℚ} (hnd : ti.Nodup)
    (hlen : ti.length = ts.length) {i : ℕ} (hi : i < ti.length) :
    item_to_score ti ts (ti.getD i 0) = ts.getD i 0 := by
  unfold item_to_score
  have hits : i < ts.length := hlen ▸ hi
  have hziplen : (ti.zip ts).length = ti.length := by
    rw [List.length_zip]
    omega
  have hx : (ti.getD i 0, ts.getD i 0) ∈ (ti.zip ts).reverse := by
    rw [List.mem_reverse, List.mem_iff_getElem]
    refine ⟨i, by rw [hziplen]; exact hi, ?_⟩
    rw [List.getElem_zip]
    rw [List.getD_eq_getElem _ _ hi, List.getD_eq_getElem _ _ hits]
  have hnd' : (((ti.zip ts).reverse).map Prod.fst).Nodup := by
    rw [List.map_reverse, List.nodup_reverse, List.map_fst_zip _ _ (le_of_eq hlen)]
    exact hnd
  have := find_fst_unique ((ti.zip ts).reverse) (ti.getD i 0, ts.getD i 0) hnd' hx
  rw [this]

theorem mmrLoop_ok_head {lam : ℚ} {top_k : ℤ} {sim : ℕ → ℕ → ℚ} {score : ℕ → ℚ}
    {fuel : ℕ} {s : ℕ} {ss remaining sel rem : List ℕ}
    (h : mmrLoop lam top_k sim score fuel (s :: ss) remaining = .ok (sel, rem)) :
    sel.head? = some s := by
  obtain ⟨t, ht⟩ := mmrLoop_ok_append _ _ _ _ _ h
  rw [ht]
  rfl

theorem map_item_to_score {ti : List ℕ} {ts : List ℚ} (hnd : ti.Nodup)
    (hlen : ti.length = ts.length) :
    ti.map (item_to_score ti ts) = ts := by
  apply List.ext_getElem
  · simpa using hlen
  · intro j h1 h2
    rw [List.getElem_map]
    have hj : j < ti.length := by simpa using h1
    have halign := item_to_score_getD hnd hlen hj
    rw [List.getD_eq_getElem _ _ hj, List.getD_eq_getElem _ _ (hlen ▸ hj)] at halign
    exact halign

theorem sortedPool_head {row : List ℚ} {hd : ℕ × ℚ} {t : List (ℕ × ℚ)}
    (heq : sortedPool row = hd :: t) :
    hd.1 < row.length ∧ hd.2 = row.getD hd.1 0 ∧
    (∀ j, j < row.length → row.getD j 0 ≤ hd.2) ∧
    (∀ j, j < hd.1 → row.getD j 0 < hd.2) := by
  have hmem : hd ∈ sortedPool row := by
    rw [heq]
    exact List.mem_cons_self hd t
  obtain ⟨j0, hj0, hcoord⟩ := mem_sortedPool.mp hmem
  have hfst : hd.1 = j0 := by rw [hcoord]
  have hsnd : hd.2 = row.getD hd.1 0 := by
    rw [hcoord]
    simp only
    rw [List.getD_eq_getElem _ _ hj0]
  have hpw : (hd :: t).Pairwise beats := heq ▸ sortedPool_pairwise
  have hhead : ∀ y ∈ t, beats hd y := (List.pairwise_cons.mp hpw).1
  refine ⟨by rw [hfst]; exact hj0, hsnd, ?_, ?_⟩
  · intro j hj
    have : (j, row[j]) ∈ sortedPool row := mem_sortedPool.mpr ⟨j, hj, rfl⟩
    rw [heq] at this
    rcases List.mem_cons.mp this with hjh | hjt
    · have h2 : hd.2 = row[j] := by rw [← hjh]
      rw [List.getD_eq_getElem _ _ hj, h2]
    · rcases hhead _ hjt with hlt | htie
      · rw [List.getD_eq_getElem _ _ hj]
        exact le_of_lt hlt
      · rw [List.getD_eq_getElem _ _ hj]
        exact le_of_eq htie.1.symm
  · intro j hjlt
    have hjn : j < row.length := lt_trans hjlt (hfst ▸ hj0)
    have : (j, row[j]) ∈ sortedPool row := mem_sortedPool.mpr ⟨j, hjn, rfl⟩
    rw [heq] at this
    rcases List.mem_cons.mp this with hjh | hjt
    · exfalso
      have : hd.1 = j := by rw [← hjh]
      omega
    · rcases hhead _ hjt with hlt | htie
      · rw [List.getD_eq_getElem _ _ hjn]
        exact hlt
      · exfalso
        have : hd.1 < j := by simpa using htie.2
        omega

/-! ### Cosine similarity (`get_cosine_similarity`, lines 81-86), over the reals

`F.normalize(x, p=2, dim=1)` divides each row elementwise by
`max(norm(row), eps)` with torch's default `eps = 1e-12`; the clamp is kept in
the model, since for rows of positive norm below the epsilon it changes the
result.  The similarity matrix entry (i, j) is the dot product of the
normalized rows i and j, exactly
`torch.matmul(norm_item_e, norm_item_e.T)[i, j]`. -/

/-- Dot product of two real vectors (rows are truncated to the common
length, which never differs in the source where all rows share dimension). -/
def dotR (v w : List ℝ) : ℝ :=
  (List.zipWith (fun a b => a * b) v w).sum

/-- Euclidean norm of a real vector. -/
noncomputable def normR (v : List ℝ) : ℝ :=
  Real.sqrt (dotR v v)

/-- The denominator clamp of `F.normalize` (torch default `eps = 1e-12`). -/
noncomputable def normEps : ℝ :=
  1 / 10 ^ 12

/-- One row of `F.normalize(all_item_e, p=2, dim=1)`:
`v / max(norm(v), eps)` elementwise. -/
noncomputable def normalizeRow (v : List ℝ) : List ℝ :=
  v.map fun x => x / max (normR v) normEps

/-- Entry (i, j) of the similarity matrix returned by
`MMRReranker.get_cosine_similarity`. -/
noncomputable def get_cosine_similarity (all_item_e : List (List ℝ)) (i j : ℕ) : ℝ :=
  dotR (normalizeRow (all_item_e.getD i [])) (normalizeRow (all_item_e.getD j []))

theorem dotR_comm (v w : List ℝ) : dotR v w = dotR w v := by
  unfold dotR
  rw [List.zipWith_comm_of_comm]
  intro a b
  exact mul_comm a b

theorem dotR_self_nonneg (v : List ℝ) : 0 ≤ dotR v v := by
  induction v with
  | nil => simp [dotR]
  | cons x xs ih =>
    have hcons : dotR (x :: xs) (x :: xs) = x * x + dotR xs xs := by
      simp [dotR]
    rw [hcons]
    exact add_nonneg (mul_self_nonneg x) ih

theorem dotR_map_div (v : List ℝ) (c : ℝ) :
    dotR (v.map fun x => x / c) (v.map fun x => x / c) = dotR v v / (c * c) := by
  induction v with
  | nil => simp [dotR]
  | cons x xs ih =>
    have hcons1 : dotR ((x :: xs).map fun x => x / c) ((x :: xs).map fun x => x / c) =
        (x / c) * (x / c) + dotR (xs.map fun x => x / c) (xs.map fun x => x / c) := by
      simp [dotR]
    have hcons2 : dotR (x :: xs) (x :: xs) = x * x + dotR xs xs := by
      simp [dotR]
    rw [hcons1, hcons2, ih, div_mul_div_comm, add_div]

theorem compute_mmr_ok_fill {rr : MMRReranker} {sim : ℕ → ℕ → ℚ} {ts : List ℚ}
    {ti : List ℕ} {sel rem : List ℕ}
    (hsel : compute_mmr_selection rr sim ts ti = .ok (sel, rem)) :
    compute_mmr rr sim ts ti =
      fillLoop ts (List.replicate ts.length none) 0 (sel ++ rem) := by
  unfold compute_mmr
  rw [hsel]
  rfl

theorem compute_mmr_of_err {rr : MMRReranker} {sim : ℕ → ℕ → ℚ} {ts : List ℚ}
    {ti : List ℕ} {e : MMRError}
    (hsel : compute_mmr_selection rr sim ts ti = .error e) :
    compute_mmr rr sim ts ti = .error e := by
  unfold compute_mmr
  rw [hsel]
  rfl

theorem rerank_of_topks {rr : MMRReranker} {sim : ℕ → ℕ → ℚ} {scores : List (List ℚ)}
    {topks : List (List ℚ × List ℕ)}
    (h : exceptMap (topkRow rr.n_items) scores = .ok topks) :
    rerank rr sim scores = exceptMap (fun p => compute_mmr rr sim p.1 p.2) topks := by
  unfold rerank
  rw [h]
  rfl

theorem rerank_of_topk_err {rr : MMRReranker} {sim : ℕ → ℕ → ℚ} {scores : List (List ℚ)}
    {e : MMRError} (h : exceptMap (topkRow rr.n_items) scores = .error e) :
    rerank rr sim scores = .error e := by
  unfold rerank
  rw [h]
  rfl

/-! ### The claims -/

/-- C1: in the greedy MMR selection loop, for every iteration after the first
pick (selected list still shorter than `top_k`, remaining pool non-empty),
the item moved from the remaining pool into the selected list is a remaining
candidate maximizing
`lambda_mmr * relevance(c) - (1 - lambda_mmr) * sum over s in selected of sim(c, s)`,
where `relevance` is the prefilter score read from the `item_to_score`
dictionary and `sim` is read from the similarity matrix; the loop recursion
moves exactly that item. -/
theorem mmr_step_selects_argmax (rr : MMRReranker) (sim : ℕ → ℕ → ℚ)
    (topk_scores : List ℚ) (topk_indices : List ℕ) (score : ℕ → ℚ)
    (fuel : ℕ) (selected remaining : List ℕ)
    (_hscore : score = item_to_score topk_indices topk_scores)
    (hlt : (selected.length : ℤ) < rr.top_k) (hne : remaining ≠ []) :
    next_item rr.lambda_mmr sim score selected remaining ∈ remaining ∧
    (∀ c ∈ remaining,
      mmr_of rr.lambda_mmr sim score selected c ≤
        mmr_of rr.lambda_mmr sim score selected
          (next_item rr.lambda_mmr sim score selected remaining)) ∧
    mmrLoop rr.lambda_mmr rr.top_k sim score (fuel + 1) selected remaining =
      mmrLoop rr.lambda_mmr rr.top_k sim score fuel
        (selected ++ [next_item rr.lambda_mmr sim score selected remaining])
        (remaining.erase (next_item rr.lambda_mmr sim score selected remaining)) := by
  obtain ⟨idx, hidx⟩ :=
    @argmaxIdx_map_some remaining (mmr_of rr.lambda_mmr sim score selected) hne
  have hnext : next_item rr.lambda_mmr sim score selected remaining =
      remaining.getD idx 0 := by
    unfold next_item
    rw [hidx]
    rfl
  have hlen : idx < remaining.length := by simpa using argmaxIdx_length hidx
  have hmem : remaining.getD idx 0 ∈ remaining := by
    rw [List.getD_eq_getElem _ _ hlen]
    exact List.getElem_mem hlen
  refine ⟨by rw [hnext]; exact hmem, ?_, ?_⟩
  · intro c hc
    rw [hnext]
    rw [List.mem_iff_getElem] at hc
    obtain ⟨j, hj, rfl⟩ := hc
    have hmax := argmaxIdx_le hidx j (by simpa using hj)
    have h1 : (remaining.map (mmr_of rr.lambda_mmr sim score selected)).getD j 0 =
        mmr_of rr.lambda_mmr sim score selected remaining[j] := by
      rw [List.getD_eq_getElem _ _ (by simpa using hj), List.getElem_map]
    have h2 : (remaining.map (mmr_of rr.lambda_mmr sim score selected)).getD idx 0 =
        mmr_of rr.lambda_mmr sim score selected (remaining.getD idx 0) := by
      rw [List.getD_eq_getElem _ _ (by simpa using hlen), List.getElem_map,
        List.getD_eq_getElem _ _ hlen]
    rw [h1, h2] at hmax
    exact hmax
  · rw [hnext]
    exact mmrLoop_step hlt hidx

/-- C1 witness: a concrete loop state where the theorem applies. -/
theorem mmr_step_selects_argmax_witness :
    ((([0] : List ℕ).length : ℤ) < (⟨1/2, 2, 3⟩ : MMRReranker).top_k ∧
      ([1, 2] : List ℕ) ≠ []) ∧
    (next_item (⟨1/2, 2, 3⟩ : MMRReranker).lambda_mmr (fun _ _ => 0)
        (item_to_score [0, 1, 2] [5, 4, 3]) [0] [1, 2] ∈ ([1, 2] : List ℕ) ∧
      (∀ c ∈ ([1, 2] : List ℕ),
        mmr_of (⟨1/2, 2, 3⟩ : MMRReranker).lambda_mmr (fun _ _ => 0)
          (item_to_score [0, 1, 2] [5, 4, 3]) [0] c ≤
        mmr_of (⟨1/2, 2, 3⟩ : MMRReranker).lambda_mmr (fun _ _ => 0)
          (item_to_score [0, 1, 2] [5, 4, 3]) [0]
          (next_item (⟨1/2, 2, 3⟩ : MMRReranker).lambda_mmr (fun _ _ => 0)
            (item_to_score [0, 1, 2] [5, 4, 3]) [0] [1, 2])) ∧
      mmrLoop (⟨1/2, 2, 3⟩ : MMRReranker).lambda_mmr (⟨1/2, 2, 3⟩ : MMRReranker).top_k
          (fun _ _ => 0) (item_to_score [0, 1, 2] [5, 4, 3]) (1 + 1) [0] [1, 2] =
        mmrLoop (⟨1/2, 2, 3⟩ : MMRReranker).lambda_mmr (⟨1/2, 2, 3⟩ : MMRReranker).top_k
          (fun _ _ => 0) (item_to_score [0, 1, 2] [5, 4, 3]) 1
          ([0] ++ [next_item (⟨1/2, 2, 3⟩ : MMRReranker).lambda_mmr (fun _ _ => 0)
            (item_to_score [0, 1, 2] [5, 4, 3]) [0] [1, 2]])
          (([1, 2] : List ℕ).erase
            (next_item (⟨1/2, 2, 3⟩ : MMRReranker).lambda_mmr (fun _ _ => 0)
              (item_to_score [0, 1, 2] [5, 4, 3]) [0] [1, 2]))) :=
  ⟨⟨by decide, by decide⟩,
    mmr_step_selects_argmax ⟨1/2, 2, 3⟩ (fun _ _ => 0) [5, 4, 3] [0, 1, 2]
      (item_to_score [0, 1, 2] [5, 4, 3]) 1 [0] [1, 2] rfl (by decide) (by decide)⟩

/-- C3: on every input where compute_mmr completes (and the topk score and
index lists have the program-guaranteed common length), the returned tensor
equals topk_scores elementwise (each entry wrapped in `some`; `none` is the
-inf fill, always overwritten), for every lambda_mmr: the greedy selection
has no effect on the returned value because reranked_scores[i] is assigned
topk_scores[i] positionally. -/
theorem compute_mmr_returns_topk_scores (rr : MMRReranker) (sim : ℕ → ℕ → ℚ)
    (ts : List ℚ) (ti : List ℕ) (out : List (Option ℚ))
    (hlen : ts.length = ti.length)
    (hok : compute_mmr rr sim ts ti = .ok out) :
    out = ts.map some := by
  cases hsel : compute_mmr_selection rr sim ts ti with
  | error e =>
    rw [compute_mmr_of_err hsel] at hok
    exact Except.noConfusion hok
  | ok sr =>
    obtain ⟨sel, rem⟩ := sr
    rw [compute_mmr_ok_fill hsel] at hok
    have hlen2 : 0 + (sel ++ rem).length = ts.length := by
      cases ti with
      | nil =>
        rw [compute_mmr_selection_nil] at hsel
        exact Except.noConfusion hsel
      | cons first rest =>
        rw [compute_mmr_selection_cons] at hsel
        have hL := mmrLoop_ok_length _ _ _ _ _ hsel
        rw [List.length_append]
        simp only [List.length_cons, List.length_nil] at hL hlen
        omega
    have hfill := @fillLoop_spec ts (sel ++ rem) 0 hlen2
    simp only [List.take_zero, List.nil_append, Nat.sub_zero] at hfill
    rw [hfill] at hok
    cases hok
    rfl

/-- C3 witness: a concrete completed run. -/
theorem compute_mmr_returns_topk_scores_witness :
    (([5] : List ℚ).length = ([0] : List ℕ).length ∧
      compute_mmr ⟨1/2, 1, 1⟩ (fun _ _ => 0) [5] [0] = .ok [some 5]) ∧
    ([some (5 : ℚ)] = ([5] : List ℚ).map some) :=
  ⟨⟨by decide, by decide⟩,
    compute_mmr_returns_topk_scores ⟨1/2, 1, 1⟩ (fun _ _ => 0) [5] [0] [some 5]
      (by decide) (by decide)⟩

/-- C4 counterexample: the claim "empty candidate set yields an empty
SelectedList rather than an error, and top_k beyond the pool size just gives
a shorter list with no error" is false on the code: an empty candidate pool
raises IndexError at `full_list[0]`, and top_k = 3 with a pool of 2 items
runs torch.argmax on an empty tensor, raising, instead of returning the
2-element list. -/
theorem selection_edge_cases_error :
    compute_mmr_selection ⟨1/2, 20, 500⟩ (fun _ _ => 0) [] [] = .error .indexError ∧
    compute_mmr_selection ⟨1/2, 3, 5⟩ (fun _ _ => 0) [2, 1] [0, 1] =
      .error .argmaxEmpty := by
  exact ⟨rfl, by decide⟩

/-- C4 (amended): the length law `|SelectedList| = min(top_k, |pool|)` holds
exactly when the candidate pool is non-empty and top_k does not exceed it;
an empty pool raises IndexError and a pool smaller than top_k raises the
argmax-on-empty error instead of returning fewer entries. -/
theorem selection_length_characterization (rr : MMRReranker) (sim : ℕ → ℕ → ℚ)
    (ts : List ℚ) (ti : List ℕ) (h1 : 1 ≤ rr.top_k) :
    (rr.top_k ≤ (ti.length : ℤ) →
      ∃ sel rem, compute_mmr_selection rr sim ts ti = .ok (sel, rem) ∧
        (sel.length : ℤ) = min rr.top_k (ti.length : ℤ)) ∧
    (ti = [] → compute_mmr_selection rr sim ts ti = .error .indexError) ∧
    ((ti.length : ℤ) < rr.top_k → ti ≠ [] →
      compute_mmr_selection rr sim ts ti = .error .argmaxEmpty) := by
  refine ⟨?_, ?_, ?_⟩
  · intro h2
    cases ti with
    | nil =>
      simp only [List.length_nil, Nat.cast_zero] at h2
      exact absurd h2 (by omega)
    | cons first rest =>
      rw [compute_mmr_selection_cons]
      have h2' : rr.top_k ≤ (([first] : List ℕ).length : ℤ) + rest.length := by
        simp only [List.length_cons, List.length_nil] at h2 ⊢
        push_cast at h2 ⊢
        omega
      obtain ⟨sel, rem, heq, hlen⟩ :=
        mmrLoop_total (rest.length + 1) [first] rest (by omega) h2'
      refine ⟨sel, rem, heq, ?_⟩
      rw [hlen]
      simp only [List.length_cons, List.length_nil] at h2 ⊢
      push_cast at h2 ⊢
      omega
  · intro h
    subst h
    exact compute_mmr_selection_nil
  · intro h2 hne
    cases ti with
    | nil => exact absurd rfl hne
    | cons first rest =>
      rw [compute_mmr_selection_cons]
      apply mmrLoop_overrun
      · omega
      · simp only [List.length_cons, List.length_nil] at h2 ⊢
        push_cast at h2 ⊢
        omega

/-- C4 witness: a concrete pool where the amended length law holds. -/
theorem selection_length_characterization_witness :
    (1 ≤ (⟨1/2, 2, 5⟩ : MMRReranker).top_k ∧
      (⟨1/2, 2, 5⟩ : MMRReranker).top_k ≤ (([0, 1, 2] : List ℕ).length : ℤ)) ∧
    (∃ sel rem,
      compute_mmr_selection ⟨1/2, 2, 5⟩ (fun _ _ => 0) [3, 2, 1] [0, 1, 2] =
        .ok (sel, rem) ∧
      (sel.length : ℤ) =
        min (⟨1/2, 2, 5⟩ : MMRReranker).top_k (([0, 1, 2] : List ℕ).length : ℤ)) :=
  ⟨⟨by decide, by decide⟩,
    (selection_length_characterization ⟨1/2, 2, 5⟩ (fun _ _ => 0) [3, 2, 1] [0, 1, 2]
      (by decide)).1 (by decide)⟩

/-- C5 counterexample: lambda_mmr = 2 lies outside [0, 1], yet the reranker
performs the request normally and returns a result instead of rejecting with
InvalidParameterError. -/
theorem rerank_accepts_invalid_lambda :
    rerank ⟨2, 1, 1⟩ (fun _ _ => 0) [[5]] = .ok [[some 5]] := by decide

/-- C5 (amended): the code performs no parameter validation whatsoever:
`__init__` stores lambda_mmr, top_k and n_items unchecked, and no code path
of `rerank` ever produces the InvalidParameterError of the specification for
any parameter values (invalid n_items surfaces later as a topk range error
instead). -/
theorem rerank_never_invalid_parameter (rr : MMRReranker) (sim : ℕ → ℕ → ℚ)
    (scores : List (List ℚ)) :
    rerank rr sim scores ≠ .error .invalidParameter := by
  cases ht : exceptMap (topkRow rr.n_items) scores with
  | error e =>
    rw [rerank_of_topk_err ht]
    intro h
    injection h with h'
    subst h'
    exact exceptMap_ne_error (fun row => topkRow_ne_invalid) scores ht
  | ok topks =>
    rw [rerank_of_topks ht]
    exact exceptMap_ne_error (fun p => compute_mmr_ne_invalid) topks

/-- C5 witness: even with every parameter invalid per the specification
(lambda = 2, top_k = 0, n_items = -1) no InvalidParameterError appears. -/
theorem rerank_never_invalid_parameter_witness :
    rerank ⟨2, 0, -1⟩ (fun _ _ => 0) [[1]] ≠ .error .invalidParameter :=
  rerank_never_invalid_parameter ⟨2, 0, -1⟩ (fun _ _ => 0) [[1]]

/-- C6 counterexample: a prefilter width of 3 on a 2-item row raises the
topk out-of-range error; nothing is clamped and no items are returned. -/
theorem topk_over_range_not_clamped :
    topkRow 3 [1, 2] = .error .topkOutOfRange := by decide

/-- C6 (amended): whenever the configured prefilter width exceeds the score
row length, torch.topk raises its out-of-range error instead of clamping to
the row length. -/
theorem topk_out_of_range_errors (k : ℤ) (row : List ℚ)
    (h : (row.length : ℤ) < k) :
    topkRow k row = .error .topkOutOfRange := by
  have hneg : ¬ (0 ≤ k ∧ k ≤ (row.length : ℤ)) := by
    intro hc
    omega
  unfold topkRow
  rw [if_neg hneg]

/-- C6 witness: the amended statement at n_items = 3, row length 2. -/
theorem topk_out_of_range_errors_witness :
    ((([1, 2] : List ℚ).length : ℤ) < 3) ∧
    topkRow 3 [1, 2] = .error .topkOutOfRange :=
  ⟨by decide, topk_out_of_range_errors 3 [1, 2] (by decide)⟩

/-- C7: for every non-empty candidate set (prefilter succeeds with k at least
one), the first item placed in the selected list is the candidate with the
maximum prefilter score, ties broken by lowest item identifier: the head of
the topk index list is a maximizer of the row whose every strictly smaller
identifier scores strictly less, and whenever the selection phase completes
its output list starts with exactly that item. -/
theorem first_selected_is_max_lowest_id (rr : MMRReranker) (sim : ℕ → ℕ → ℚ)
    (k : ℤ) (row ts : List ℚ) (ti : List ℕ)
    (h1 : 1 ≤ k) (hok : topkRow k row = .ok (ts, ti)) :
    ∃ first, ti.head? = some first ∧ first < row.length ∧
      (∀ j, j < row.length → row.getD j 0 ≤ row.getD first 0) ∧
      (∀ j, j < first → row.getD j 0 < row.getD first 0) ∧
      ∀ sel rem, compute_mmr_selection rr sim ts ti = .ok (sel, rem) →
        sel.head? = some first := by
  obtain ⟨h0, hk, hts, hti⟩ := topkRow_ok_elim hok
  cases hpool : sortedPool row with
  | nil =>
    exfalso
    have hl := @sortedPool_length row
    rw [hpool] at hl
    simp only [List.length_nil] at hl
    omega
  | cons hd t =>
    obtain ⟨hhd1, hhd2, hmax, hlow⟩ := sortedPool_head hpool
    obtain ⟨m, hm2⟩ : ∃ m, k.toNat = m + 1 := ⟨k.toNat - 1, by omega⟩
    have htake : (sortedPool row).take k.toNat = hd :: t.take (k.toNat - 1) := by
      rw [hpool, hm2, List.take_succ_cons]
      simp
    have hti' : ti = hd.1 :: (t.take (k.toNat - 1)).map Prod.fst := by
      rw [hti, htake]
      rfl
    refine ⟨hd.1, by rw [hti']; rfl, hhd1, ?_, ?_, ?_⟩
    · intro j hj
      rw [← hhd2]
      exact hmax j hj
    · intro j hj
      rw [← hhd2]
      exact hlow j hj
    · intro sel rem hsel
      rw [hti', compute_mmr_selection_cons] at hsel
      exact mmrLoop_ok_head hsel

/-- C7 witness: row [5, 7, 7] with a score tie between items 1 and 2; the
first selected item is 1, the lowest identifier among the maximizers. -/
theorem first_selected_is_max_lowest_id_witness :
    (1 ≤ (2 : ℤ) ∧ topkRow 2 [5, 7, 7] = .ok ([7, 7], [1, 2])) ∧
    (∃ first, ([1, 2] : List ℕ).head? = some first ∧
      first < ([5, 7, 7] : List ℚ).length ∧
      (∀ j, j < ([5, 7, 7] : List ℚ).length →
        ([5, 7, 7] : List ℚ).getD j 0 ≤ ([5, 7, 7] : List ℚ).getD first 0) ∧
      (∀ j, j < first →
        ([5, 7, 7] : List ℚ).getD j 0 < ([5, 7, 7] : List ℚ).getD first 0) ∧
      ∀ sel rem,
        compute_mmr_selection ⟨1/2, 2, 3⟩ (fun _ _ => 0) [7, 7] [1, 2] = .ok (sel, rem) →
        sel.head? = some first) :=
  ⟨⟨by decide, by decide⟩,
    first_selected_is_max_lowest_id ⟨1/2, 2, 3⟩ (fun _ _ => 0) 2 [5, 7, 7] [7, 7] [1, 2]
      (by decide) (by decide)⟩

/-- C8: with lambda_mmr = 1 the greedy MMR selection reduces to pure
descending-relevance ranking: on any prefilter output the selection order is
exactly the prefilter order, the selected list being the first top_k
prefilter candidates in order. -/
theorem lambda_one_gives_prefilter_order (rr : MMRReranker) (sim : ℕ → ℕ → ℚ)
    (k : ℤ) (row ts : List ℚ) (ti : List ℕ)
    (hlam : rr.lambda_mmr = 1)
    (hok : topkRow k row = .ok (ts, ti))
    (h1 : 1 ≤ rr.top_k) (h2 : rr.top_k ≤ k) :
    compute_mmr_selection rr sim ts ti =
      .ok (ti.take rr.top_k.toNat, ti.drop rr.top_k.toNat) := by
  have hnd := topkRow_ti_nodup hok
  obtain ⟨hlen, hklen⟩ := topkRow_lengths hok
  have hsorted := topkRow_ts_sorted hok
  obtain ⟨h0, hk, _, _⟩ := topkRow_ok_elim hok
  cases ti with
  | nil =>
    exfalso
    simp only [List.length_nil] at hklen
    omega
  | cons first rest =>
    rw [compute_mmr_selection_cons, hlam]
    have hmap : (first :: rest).map (item_to_score (first :: rest) ts) = ts :=
      map_item_to_score hnd hlen.symm
    have hmapr : rest.map (item_to_score (first :: rest) ts) = ts.tail := by
      have hcongr := congrArg List.tail hmap
      simpa using hcongr
    have hpair : (rest.map (item_to_score (first :: rest) ts)).Pairwise
        (fun a b => b ≤ a) := by
      rw [hmapr]
      exact hsorted.sublist (List.tail_sublist ts)
    have hcount : rr.top_k ≤ (([first] : List ℕ).length : ℤ) + rest.length := by
      simp only [List.length_cons] at hklen
      simp only [List.length_cons, List.length_nil]
      push_cast
      omega
    have hres := @mmrLoop_lam_one rr.top_k sim (item_to_score (first :: rest) ts)
      (rest.length + 1) [first] rest hpair (by omega) hcount
    rw [hres]
    have hstep : rr.top_k.toNat = (rr.top_k - (([first] : List ℕ).length : ℤ)).toNat + 1 := by
      simp only [List.length_cons, List.length_nil]
      push_cast
      omega
    rw [hstep, List.take_succ_cons, List.drop_succ_cons]
    rfl

/-- C8 witness: lambda = 1 on the prefilter of row [1, 2, 3]: the selection
is the first two prefilter candidates in prefilter order. -/
theorem lambda_one_gives_prefilter_order_witness :
    ((⟨1, 2, 3⟩ : MMRReranker).lambda_mmr = 1 ∧
      topkRow 3 [1, 2, 3] = .ok ([3, 2, 1], [2, 1, 0]) ∧
      1 ≤ (⟨1, 2, 3⟩ : MMRReranker).top_k ∧ (⟨1, 2, 3⟩ : MMRReranker).top_k ≤ 3) ∧
    compute_mmr_selection ⟨1, 2, 3⟩ (fun _ _ => 0) [3, 2, 1] [2, 1, 0] =
      .ok (([2, 1, 0] : List ℕ).take (⟨1, 2, 3⟩ : MMRReranker).top_k.toNat,
           ([2, 1, 0] : List ℕ).drop (⟨1, 2, 3⟩ : MMRReranker).top_k.toNat) :=
  ⟨⟨rfl, by decide, by decide, by decide⟩,
    lambda_one_gives_prefilter_order ⟨1, 2, 3⟩ (fun _ _ => 0) 3 [1, 2, 3] [3, 2, 1]
      [2, 1, 0] rfl (by decide) (by decide) (by decide)⟩

/-- C9 counterexample: the one-item catalog [[1e-13, 0]].  The item vector
has non-zero norm 1e-13, but that norm lies below the 1e-12 epsilon of
F.normalize, so the program divides by the epsilon instead of the norm and
the diagonal similarity is (1e-13)^2 / (1e-12)^2 = 1/100, not 1. -/
theorem cosine_unit_diagonal_cex :
    normR ([[(1 : ℝ) / 10 ^ 13, 0]].getD 0 []) ≠ 0 ∧
    get_cosine_similarity [[(1 : ℝ) / 10 ^ 13, 0]] 0 0 = 1 / 100 ∧
    get_cosine_similarity [[(1 : ℝ) / 10 ^ 13, 0]] 0 0 ≠ 1 := by
  have hd : dotR [(1 : ℝ) / 10 ^ 13, 0] [(1 : ℝ) / 10 ^ 13, 0] = 1 / 10 ^ 26 := by
    norm_num [dotR]
  have hn : normR [(1 : ℝ) / 10 ^ 13, 0] = 1 / 10 ^ 13 := by
    unfold normR
    rw [hd, show (1 : ℝ) / 10 ^ 26 = ((1 : ℝ) / 10 ^ 13) ^ 2 by norm_num]
    exact Real.sqrt_sq (by norm_num)
  have hgetD : ([[(1 : ℝ) / 10 ^ 13, 0]].getD 0 []) = [(1 : ℝ) / 10 ^ 13, 0] := rfl
  have hmax : max (normR [(1 : ℝ) / 10 ^ 13, 0]) normEps = normEps := by
    apply max_eq_right
    rw [hn]
    unfold normEps
    norm_num
  have hdiag : get_cosine_similarity [[(1 : ℝ) / 10 ^ 13, 0]] 0 0 = 1 / 100 := by
    unfold get_cosine_similarity normalizeRow
    rw [hgetD, hmax, dotR_map_div, hd]
    unfold normEps
    norm_num
  refine ⟨?_, hdiag, ?_⟩
  · rw [hgetD, hn]
    norm_num
  · rw [hdiag]
    norm_num

/-- C9 (amended): for every item catalog the cosine similarity matrix is
symmetric (exactly, hence within any floating-point tolerance), and its
diagonal entry equals 1 for every item vector whose norm is at least the
1e-12 epsilon of F.normalize; a vector of positive norm below the epsilon is
divided by the epsilon instead, leaving a diagonal entry strictly below 1. -/
theorem cosine_symmetric_and_unit_diagonal (all_item_e : List (List ℝ)) :
    (∀ i j, get_cosine_similarity all_item_e i j =
      get_cosine_similarity all_item_e j i) ∧
    (∀ i, normEps ≤ normR (all_item_e.getD i []) →
      get_cosine_similarity all_item_e i i = 1) := by
  constructor
  · intro i j
    unfold get_cosine_similarity
    exact dotR_comm _ _
  · intro i hnorm
    unfold get_cosine_similarity normalizeRow
    set v := all_item_e.getD i [] with hv
    rw [max_eq_left hnorm, dotR_map_div]
    have hnn : 0 ≤ dotR v v := dotR_self_nonneg v
    have hsq : normR v * normR v = dotR v v := Real.mul_self_sqrt hnn
    rw [hsq]
    have hepspos : (0 : ℝ) < normEps := by
      unfold normEps
      norm_num
    have hdne : dotR v v ≠ 0 := by
      intro hc
      have hz : normR v = 0 := by
        unfold normR
        rw [hc, Real.sqrt_zero]
      rw [hz] at hnorm
      linarith
    exact div_self hdne

/-- C9 witness: the catalog [[1, 0], [0, 1]]; item 0 has norm 1, at least
the epsilon, its diagonal similarity is 1, and the matrix is symmetric at
(0, 1). -/
theorem cosine_symmetric_and_unit_diagonal_witness :
    normEps ≤ normR ([[(1 : ℝ), 0], [0, 1]].getD 0 []) ∧
    get_cosine_similarity [[(1 : ℝ), 0], [0, 1]] 0 0 = 1 ∧
    get_cosine_similarity [[(1 : ℝ), 0], [0, 1]] 0 1 =
      get_cosine_similarity [[(1 : ℝ), 0], [0, 1]] 1 0 := by
  have hd : dotR [(1 : ℝ), 0] [(1 : ℝ), 0] = 1 := by
    norm_num [dotR]
  have hn : normEps ≤ normR ([[(1 : ℝ), 0], [0, 1]].getD 0 []) := by
    show normEps ≤ normR [(1 : ℝ), 0]
    unfold normR
    rw [hd, Real.sqrt_one]
    unfold normEps
    norm_num
  exact ⟨hn, (cosine_symmetric_and_unit_diagonal [[(1 : ℝ), 0], [0, 1]]).2 0 hn,
    (cosine_symmetric_and_unit_diagonal [[(1 : ℝ), 0], [0, 1]]).1 0 1⟩

/-- C10: no duplicate item identifiers ever appear in a user's selected
list: for any candidate pool without duplicates (as the topk prefilter
produces), every selected list the selection phase returns is duplicate-free
(the proof maintains the invariant at every iteration of the loop). -/
theorem selected_list_nodup (rr : MMRReranker) (sim : ℕ → ℕ → ℚ)
    (ts : List ℚ) (ti : List ℕ) (sel rem : List ℕ)
    (hnd : ti.Nodup)
    (hok : compute_mmr_selection rr sim ts ti = .ok (sel, rem)) :
    sel.Nodup := by
  cases ti with
  | nil =>
    rw [compute_mmr_selection_nil] at hok
    exact Except.noConfusion hok
  | cons first rest =>
    rw [compute_mmr_selection_cons] at hok
    rw [List.nodup_cons] at hnd
    refine mmrLoop_nodup _ _ _ _ _ (List.nodup_singleton first) hnd.2 ?_ hok
    intro a ha
    rw [List.mem_singleton] at ha
    subst ha
    exact hnd.1

/-- C10 witness: a concrete duplicate-free pool and its selection. -/
theorem selected_list_nodup_witness :
    (([0, 1] : List ℕ).Nodup ∧
      compute_mmr_selection ⟨1/2, 1, 5⟩ (fun _ _ => 0) [2, 1] [0, 1] =
        .ok ([0], [1])) ∧
    ([0] : List ℕ).Nodup :=
  ⟨⟨by decide, by decide⟩,
    selected_list_nodup ⟨1/2, 1, 5⟩ (fun _ _ => 0) [2, 1] [0, 1] [0] [1]
      (by decide) (by decide)⟩

/-- The similarity matrix of the C2 failing input: items 0 and 1 point in
the same direction (cosine similarity 1), every other pair is orthogonal. -/
def simC2 : ℕ → ℕ → ℚ := fun i j =>
  if (i = 0 ∧ j = 1) ∨ (i = 1 ∧ j = 0) then 1 else 0

/-- C2: evaluation of the code at the failing input (one user, scores
[5, 4, 39/10], lambda = 1/2, top_k = 2, n_items = 3, items 0 and 1 fully
similar).  The greedy phase internally selects [0, 2] - diversity demotes
item 1 - but compute_mmr returns the positional topk scores
some [5, 4, 39/10] of full pool length 3: not the selected identifiers, not
in selection order, and not of length at most top_k.  The selection result
is discarded. -/
theorem reranked_scores_discard_selection :
    compute_mmr_selection ⟨1/2, 2, 3⟩ simC2 [5, 4, 39/10] [0, 1, 2] =
      .ok ([0, 2], [1]) ∧
    compute_mmr ⟨1/2, 2, 3⟩ simC2 [5, 4, 39/10] [0, 1, 2] =
      .ok (([5, 4, 39/10] : List ℚ).map some) := by
  have hsel : compute_mmr_selection ⟨1/2, 2, 3⟩ simC2 [5, 4, 39/10] [0, 1, 2] =
      .ok ([0, 2], [1]) := by
    norm_num [compute_mmr_selection, mmrLoop.eq_def, argmaxIdx, mmr_of,
      similarity_to_selected, item_to_score, simC2]
  refine ⟨hsel, ?_⟩
  rw [compute_mmr_ok_fill hsel]
  rfl
